import Mathlib

/-!
Shallow embedding of `src/examples/selection_sort.cpp` and proofs of the
specification's claims about it.

The program reads a test-case count `t`, then for each test case reads a
length `n` and `n` integers into `vector<int> vec`, sorts `vec` in place
with selection sort, and prints the elements space-separated on one line.

Modelling choices:
- `vector<int>` becomes `List Int`; the C++ index read `vec[j]` becomes
  `List.getD vec j 0` and the write `vec[i] = x` becomes `List.set vec i x`
  (all indices used by the program are in bounds, where C++ indexing is
  defined).
- Each C++ `for` loop becomes a structurally recursive function with an
  explicit fuel argument that counts the iterations the loop has left;
  the loop condition from the source is still tested at every step.
- The token stream on standard input becomes a `List Int`; a read that
  finds no token (or a negative length, where `vector<int> vec(n)` throws)
  is modelled as `none`.  The spec declares malformed input unspecified,
  and every claim below concerns well-formed input only.
-/

/-- Inner loop of the sort (source lines 23-30):
`int minIndex = i; for (int j = i + 1; j < n; j++) if (vec[j] < vec[minIndex]) minIndex = j;`
`fuel` is the number of remaining iterations (`n - j` at the call site). -/
def findMinAux (vec : List Int) (n : Nat) : Nat → Nat → Nat → Nat
  | 0, m, _ => m
  | fuel + 1, m, j =>
    if j < n then
      findMinAux vec n fuel (if vec.getD j 0 < vec.getD m 0 then j else m) (j + 1)
    else m

/-- The inner scan starting from candidate `m` at position `j`. -/
def findMin (vec : List Int) (n m j : Nat) : Nat :=
  findMinAux vec n (n - j) m j

/-- The three-assignment exchange (source lines 31-33):
`int temp = vec[i]; vec[i] = vec[minIndex]; vec[minIndex] = temp;` -/
def swapElems (vec : List Int) (i m : Nat) : List Int :=
  (vec.set i (vec.getD m 0)).set m (vec.getD i 0)

/-- Outer loop of the sort (source lines 21-34):
`for (int i = 0; i < n - 1; i++) { ...find minIndex...; ...swap...; }`
`fuel` is the number of remaining iterations. -/
def sortLoopAux (n : Nat) : Nat → List Int → Nat → List Int
  | 0, vec, _ => vec
  | fuel + 1, vec, i =>
    if i < n - 1 then
      sortLoopAux n fuel (swapElems vec i (findMin vec n i (i + 1))) (i + 1)
    else vec

/-- The whole in-place sort performed on a test case's vector: the outer
loop starts at `i = 0` and runs at most `n - 1` times. -/
def selectionSort (vec : List Int) : List Int :=
  sortLoopAux vec.length (vec.length - 1) vec 0

/-- State of the vector after the first `k` iterations of the outer loop
(used to state the loop invariant). -/
def sortPasses (vec : List Int) (k : Nat) : List Int :=
  sortLoopAux vec.length k vec 0

/-- Print loop (source lines 37-42):
`for (int i = 0; i < n; i++) { cout << vec[i]; if (i < n - 1) cout << " "; }` -/
def printLoopAux (vec : List Int) (n : Nat) : Nat → Nat → String
  | 0, _ => ""
  | fuel + 1, i =>
    if i < n then
      toString (vec.getD i 0) ++ (if i < n - 1 then " " else "") ++
        printLoopAux vec n fuel (i + 1)
    else ""

/-- The characters the print loop writes for a vector of length `n`. -/
def printVec (vec : List Int) (n : Nat) : String :=
  printLoopAux vec n n 0

/-- The full line a test case prints: the sorted vector followed by the
newline from `cout << endl` (source line 43). -/
def caseLineOf (vec : List Int) (n : Nat) : String :=
  printVec (selectionSort vec) n ++ "\n"

/-- Reading `k` integers from the token stream (source lines 15-18);
`none` models the stream running out of tokens. -/
def readInts : Nat → List Int → Option (List Int × List Int)
  | 0, ts => some ([], ts)
  | _ + 1, [] => none
  | k + 1, t :: ts =>
    match readInts k ts with
    | some (xs, rest) => some ((t :: xs, rest) : List Int × List Int)
    | none => none

/-- One iteration of the `while (t--)` body (source lines 11-43): read `n`,
read the `n` elements, sort, and produce the printed line together with the
unconsumed tokens.  A negative `n` makes `vector<int> vec(n)` throw, which
is modelled as `none`. -/
def processCase (tokens : List Int) : Option (String × List Int) :=
  match tokens with
  | [] => none
  | nTok :: rest =>
    if nTok < 0 then none
    else
      match readInts nTok.toNat rest with
      | none => none
      | some (vec, rest2) => some (caseLineOf vec nTok.toNat, rest2)

/-- The `while (t--)` loop (source lines 9-44), iterated `t` times,
returning the printed lines and the unconsumed tokens. -/
def processCases : Nat → List Int → Option (List String × List Int)
  | 0, ts => some (([], ts) : List String × List Int)
  | t + 1, ts =>
    match processCase ts with
    | none => none
    | some (line, rest) =>
      match processCases t rest with
      | none => none
      | some (lines, rest2) => some ((line :: lines, rest2) : List String × List Int)

/-- The whole program `main` (source lines 5-46): read `t`, run the loop,
and exit with status `0` (`return 0;`).  The result pairs everything the
program writes to standard output with its exit status.  A negative `t`
makes `while (t--)` never reach zero, modelled as `none`. -/
def runProgram (tokens : List Int) : Option (String × Nat) :=
  match tokens with
  | [] => none
  | t :: rest =>
    if t < 0 then none
    else
      match processCases t.toNat rest with
      | none => none
      | some (lines, _) => some ((String.join lines, 0) : String × Nat)

/-- Token encoding of one well-formed test case: its length followed by its
elements (the input format of spec section 6). -/
def encodeCase (c : List Int) : List Int :=
  (c.length : Int) :: c

/-- Token encoding of a list of well-formed test cases. -/
def encodeCases (cs : List (List Int)) : List Int :=
  (cs.map encodeCase).flatten

/-- The list of output lines the program emits on the well-formed input
stream encoding `cs` (count token followed by the encoded cases). -/
def programLines (cs : List (List Int)) : List String :=
  match processCases cs.length (encodeCases cs) with
  | some r => r.1
  | none => []

/-- Modelled from the spec: "scan positions i+1..n-1 to find the index of
the minimum remaining element (ties broken by earliest index)" — `m` is an
index of the remaining range `i..n-1` whose value is minimal there, and no
earlier index of that range attains the minimum. -/
def IsMinIndexFrom (vec : List Int) (i n m : Nat) : Prop :=
  i ≤ m ∧ m < n ∧
    (∀ k, i ≤ k → k < n → vec.getD m 0 ≤ vec.getD k 0) ∧
    (∀ k, i ≤ k → k < m → vec.getD m 0 < vec.getD k 0)

/-- Modelled from the spec: elements "separated by single spaces, no
trailing space". -/
def joinSpaces : List String → String
  | [] => ""
  | [s] => s
  | s :: t :: rest => s ++ " " ++ joinSpaces (t :: rest)

/-! ### Basic lemmas about indexed reads and writes -/

lemma getD_set_self (l : List Int) : ∀ (i : Nat) (a : Int), i < l.length →
    (l.set i a).getD i 0 = a := by
  induction l with
  | nil => intro i a h; simp at h
  | cons x t ih =>
    intro i a h
    cases i with
    | zero => rfl
    | succ i =>
      have h' : i < t.length := by simp at h; omega
      exact ih i a h'

lemma getD_set_ne (l : List Int) : ∀ (i j : Nat) (a : Int), i ≠ j →
    (l.set i a).getD j 0 = l.getD j 0 := by
  induction l with
  | nil => intro i j a _; simp
  | cons x t ih =>
    intro i j a hij
    cases i with
    | zero =>
      cases j with
      | zero => exact absurd rfl hij
      | succ j => rfl
    | succ i =>
      cases j with
      | zero => rfl
      | succ j => exact ih i j a (fun h => hij (by omega))

lemma getD_pos (l : List Int) (i : Nat) (h : i < l.length) : l.getD i 0 = l[i] :=
  List.getD_eq_getElem l 0 h

lemma swapElems_length (l : List Int) (i m : Nat) :
    (swapElems l i m).length = l.length := by
  simp [swapElems]

lemma swapElems_getD_left (l : List Int) (i m : Nat) (hi : i < l.length)
    (hm : m < l.length) : (swapElems l i m).getD i 0 = l.getD m 0 := by
  unfold swapElems
  rcases eq_or_ne m i with h | h
  · subst h
    exact getD_set_self _ _ _ (by simpa using hm)
  · rw [getD_set_ne _ _ _ _ h]
    exact getD_set_self _ _ _ hi

lemma swapElems_getD_right (l : List Int) (i m : Nat) (hm : m < l.length) :
    (swapElems l i m).getD m 0 = l.getD i 0 := by
  unfold swapElems
  exact getD_set_self _ _ _ (by simpa using hm)

lemma swapElems_getD_other (l : List Int) (i m p : Nat) (hpi : p ≠ i) (hpm : p ≠ m) :
    (swapElems l i m).getD p 0 = l.getD p 0 := by
  unfold swapElems
  rw [getD_set_ne _ _ _ _ (Ne.symm hpm), getD_set_ne _ _ _ _ (Ne.symm hpi)]

/-! ### The exchange preserves the multiset of elements -/

lemma coe_set_add (l : List Int) : ∀ (i : Nat) (a : Int), i < l.length →
    ((l.set i a : List Int) : Multiset Int) + {l.getD i 0} =
      (l : Multiset Int) + {a} := by
  induction l with
  | nil => intro i a h; simp at h
  | cons x t ih =>
    intro i a h
    cases i with
    | zero =>
      show ((a :: t : List Int) : Multiset Int) + {x} =
        ((x :: t : List Int) : Multiset Int) + {a}
      rw [← Multiset.cons_coe, ← Multiset.cons_coe, ← Multiset.singleton_add,
        ← Multiset.singleton_add]
      abel
    | succ i =>
      have h' : i < t.length := by simp at h; omega
      show ((x :: t.set i a : List Int) : Multiset Int) + {t.getD i 0} =
        ((x :: t : List Int) : Multiset Int) + {a}
      rw [← Multiset.cons_coe, ← Multiset.cons_coe, ← Multiset.singleton_add,
        ← Multiset.singleton_add, add_assoc, ih i a h', add_assoc]

lemma swapElems_coe (l : List Int) (i m : Nat) (hi : i < l.length)
    (hm : m < l.length) :
    ((swapElems l i m : List Int) : Multiset Int) = (l : Multiset Int) := by
  have hm2 : m < (l.set i (l.getD m 0)).length := by simpa using hm
  have h1 := coe_set_add (l.set i (l.getD m 0)) m (l.getD i 0) hm2
  have h2 := coe_set_add l i (l.getD m 0) hi
  have hb : (l.set i (l.getD m 0)).getD m 0 = l.getD m 0 := by
    rcases eq_or_ne i m with h | h
    · subst h; exact getD_set_self _ _ _ hi
    · exact getD_set_ne _ _ _ _ h
  rw [hb] at h1
  exact add_right_cancel (h1.trans h2)

/-! ### Invariant of the inner scan -/

/-- What the inner scan returns, relative to candidate `m` and start `j`:
a position of the range scanned so far whose value is minimal among `m` and
the rest of the scan range, strictly below every value at a later-scanned
smaller index, and strictly below the candidate whenever it moved. -/
def FindMinOut (vec : List Int) (n m j r : Nat) : Prop :=
  m ≤ r ∧ r < n ∧ vec.getD r 0 ≤ vec.getD m 0 ∧
    (∀ k, j ≤ k → k < n → vec.getD r 0 ≤ vec.getD k 0) ∧
    (∀ k, j ≤ k → k < r → vec.getD r 0 < vec.getD k 0) ∧
    (r ≠ m → vec.getD r 0 < vec.getD m 0)

lemma findMinAux_spec (vec : List Int) (n : Nat) :
    ∀ (fuel m j : Nat), n ≤ j + fuel → m < n → m < j →
      FindMinOut vec n m j (findMinAux vec n fuel m j) := by
  intro fuel
  induction fuel with
  | zero =>
    intro m j hfuel hm hmj
    simp only [findMinAux]
    unfold FindMinOut
    refine ⟨le_refl m, hm, le_refl _, ?_, ?_, fun h => absurd rfl h⟩
    · intro k hk hkn; exact absurd hkn (by omega)
    · intro k hk hkr; exact absurd hkr (by omega)
  | succ fuel ih =>
    intro m j hfuel hm hmj
    simp only [findMinAux]
    by_cases hj : j < n
    · rw [if_pos hj]
      by_cases hcmp : vec.getD j 0 < vec.getD m 0
      · rw [if_pos hcmp]
        obtain ⟨h1, h2, h3, h4, h5, h6⟩ := ih j (j + 1) (by omega) hj (by omega)
        unfold FindMinOut
        refine ⟨by omega, h2, le_of_lt (lt_of_le_of_lt h3 hcmp), ?_, ?_, ?_⟩
        · intro k hk hkn
          rcases eq_or_lt_of_le hk with rfl | hk'
          · exact h3
          · exact h4 k (by omega) hkn
        · intro k hk hkr
          rcases eq_or_lt_of_le hk with rfl | hk'
          · exact h6 (by omega)
          · exact h5 k (by omega) hkr
        · intro _
          exact lt_of_le_of_lt h3 hcmp
      · rw [if_neg hcmp]
        push_neg at hcmp
        obtain ⟨h1, h2, h3, h4, h5, h6⟩ := ih m (j + 1) (by omega) hm (by omega)
        unfold FindMinOut
        refine ⟨h1, h2, h3, ?_, ?_, h6⟩
        · intro k hk hkn
          rcases eq_or_lt_of_le hk with rfl | hk'
          · exact le_trans h3 hcmp
          · exact h4 k (by omega) hkn
        · intro k hk hkr
          rcases eq_or_lt_of_le hk with rfl | hk'
          · exact lt_of_lt_of_le (h6 (by omega)) hcmp
          · exact h5 k (by omega) hkr
    · rw [if_neg hj]
      unfold FindMinOut
      refine ⟨le_refl m, hm, le_refl _, ?_, ?_, fun h => absurd rfl h⟩
      · intro k hk hkn; exact absurd hkn (by omega)
      · intro k hk hkr; exact absurd hkr (by omega)

/-- The scan of pass `i` (candidate `i`, scanning `i+1 .. n-1`) returns the
earliest index of the minimum over positions `i .. n-1`. -/
lemma findMin_isMinIndexFrom (vec : List Int) (n i : Nat) (hi : i < n) :
    IsMinIndexFrom vec i n (findMin vec n i (i + 1)) := by
  have h := findMinAux_spec vec n (n - (i + 1)) i (i + 1) (by omega) hi (by omega)
  unfold FindMinOut at h
  obtain ⟨h1, h2, h3, h4, h5, h6⟩ := h
  unfold findMin
  unfold IsMinIndexFrom
  refine ⟨h1, h2, ?_, ?_⟩
  · intro k hk hkn
    rcases eq_or_lt_of_le hk with rfl | hk'
    · exact h3
    · exact h4 k (by omega) hkn
  · intro k hk hkr
    rcases eq_or_lt_of_le hk with rfl | hk'
    · exact h6 (by omega)
    · exact h5 k (by omega) hkr

lemma isMinIndexFrom_unique (vec : List Int) (i n m1 m2 : Nat)
    (h1 : IsMinIndexFrom vec i n m1) (h2 : IsMinIndexFrom vec i n m2) :
    m1 = m2 := by
  obtain ⟨hi1, hn1, hmin1, hlt1⟩ := h1
  obtain ⟨hi2, hn2, hmin2, hlt2⟩ := h2
  by_contra hne
  rcases Nat.lt_or_ge m1 m2 with h | h
  · exact absurd (hmin1 m2 hi2 hn2) (not_le.mpr (hlt2 m1 hi1 h))
  · exact absurd (hmin2 m1 hi1 hn1) (not_le.mpr (hlt1 m2 hi2 (by omega)))

/-! ### Invariant of the outer loop -/

/-- After the passes below `i` are done: positions `0 .. i-1` are pairwise
non-decreasing, and each of them is at most every element at positions
`i .. n-1`. -/
def SortedUpTo (vec : List Int) (n i : Nat) : Prop :=
  (∀ p q, p ≤ q → q < i → vec.getD p 0 ≤ vec.getD q 0) ∧
    (∀ p q, p < i → i ≤ q → q < n → vec.getD p 0 ≤ vec.getD q 0)

lemma sortedUpTo_mono (vec : List Int) (n i j : Nat) (h : j ≤ i)
    (hs : SortedUpTo vec n i) : SortedUpTo vec n j := by
  obtain ⟨h1, h2⟩ := hs
  constructor
  · intro p q hpq hq; exact h1 p q hpq (by omega)
  · intro p q hp hq hqn
    by_cases hqi : q < i
    · exact h1 p q (by omega) hqi
    · exact h2 p q (by omega) (by omega) hqn

lemma sortedUpTo_zero (vec : List Int) (n : Nat) : SortedUpTo vec n 0 := by
  constructor
  · intro p q _ hq; exact absurd hq (by omega)
  · intro p q hp _ _; exact absurd hp (by omega)

/-- One pass of the outer loop: the swap with the scanned minimum keeps the
invariant, preserves the multiset and leaves positions below `i` alone. -/
lemma step_invariant (n : Nat) (vec : List Int) (i : Nat) (hlen : vec.length = n)
    (hi : i < n - 1) (hpref : SortedUpTo vec n i) :
    (swapElems vec i (findMin vec n i (i + 1))).length = n ∧
      ((swapElems vec i (findMin vec n i (i + 1)) : List Int) : Multiset Int) =
        (vec : Multiset Int) ∧
      SortedUpTo (swapElems vec i (findMin vec n i (i + 1))) n (i + 1) ∧
      (∀ p, p < i → (swapElems vec i (findMin vec n i (i + 1))).getD p 0 =
        vec.getD p 0) := by
  have hin : i < n := by omega
  obtain ⟨hir, hrn, hmin, hlt⟩ := findMin_isMinIndexFrom vec n i hin
  set r := findMin vec n i (i + 1) with hr
  obtain ⟨hp1, hp2⟩ := hpref
  have hiL : i < vec.length := by omega
  have hrL : r < vec.length := by omega
  have gi : (swapElems vec i r).getD i 0 = vec.getD r 0 :=
    swapElems_getD_left vec i r hiL hrL
  have gr : (swapElems vec i r).getD r 0 = vec.getD i 0 :=
    swapElems_getD_right vec i r hrL
  have go : ∀ p, p ≠ i → p ≠ r → (swapElems vec i r).getD p 0 = vec.getD p 0 :=
    fun p h1 h2 => swapElems_getD_other vec i r p h1 h2
  refine ⟨by rw [swapElems_length]; exact hlen, swapElems_coe vec i r hiL hrL,
    ⟨?_, ?_⟩, ?_⟩
  · intro p q hpq hq
    by_cases hqi : q < i
    · rw [go p (by omega) (by omega), go q (by omega) (by omega)]
      exact hp1 p q hpq hqi
    · have hq' : q = i := by omega
      subst hq'
      rw [gi]
      by_cases hpq' : p = q
      · subst hpq'; rw [gi]
      · rw [go p (by omega) (by omega)]
        exact hp2 p r (by omega) hir hrn
  · intro p q hp hq hqn
    have hqi : q ≠ i := by omega
    by_cases hqr : q = r
    · subst hqr
      rw [gr]
      by_cases hpi : p = i
      · subst hpi; rw [gi]; exact hmin _ (le_refl _) hin
      · rw [go p hpi (by omega)]
        exact hp2 p i (by omega) (le_refl i) hin
    · rw [go q hqi hqr]
      by_cases hpi : p = i
      · subst hpi; rw [gi]; exact hmin q (by omega) hqn
      · rw [go p hpi (by omega)]
        exact hp2 p q (by omega) (by omega) hqn
  · intro p hp
    exact go p (by omega) (by omega)

/-- Running the outer loop keeps the length, keeps the multiset, and
extends the sorted region by one position per iteration. -/
lemma sortLoopAux_invariant (n : Nat) :
    ∀ (fuel i : Nat) (vec : List Int), vec.length = n → SortedUpTo vec n i →
      (sortLoopAux n fuel vec i).length = n ∧
        ((sortLoopAux n fuel vec i : List Int) : Multiset Int) =
          (vec : Multiset Int) ∧
        SortedUpTo (sortLoopAux n fuel vec i) n (min (i + fuel) (n - 1)) := by
  intro fuel
  induction fuel with
  | zero =>
    intro i vec hlen hpref
    simp only [sortLoopAux]
    exact ⟨hlen, by simp, sortedUpTo_mono vec n i _ (by omega) hpref⟩
  | succ fuel ih =>
    intro i vec hlen hpref
    simp only [sortLoopAux]
    by_cases hi : i < n - 1
    · rw [if_pos hi]
      obtain ⟨hL, hM, hS, _⟩ := step_invariant n vec i hlen hi hpref
      obtain ⟨hL2, hM2, hS2⟩ := ih (i + 1) _ hL hS
      refine ⟨hL2, hM2.trans hM, ?_⟩
      have e : (i + 1) + fuel = i + (fuel + 1) := by omega
      rwa [e] at hS2
    · rw [if_neg hi]
      exact ⟨hlen, rfl, sortedUpTo_mono vec n i _ (by omega) hpref⟩

/-- The outer loop never touches positions strictly below its start index. -/
lemma sortLoopAux_preserves (n : Nat) :
    ∀ (fuel i : Nat) (vec : List Int), vec.length = n →
      ∀ p, p < i → (sortLoopAux n fuel vec i).getD p 0 = vec.getD p 0 := by
  intro fuel
  induction fuel with
  | zero => intro i vec hlen p hp; simp only [sortLoopAux]
  | succ fuel ih =>
    intro i vec hlen p hp
    simp only [sortLoopAux]
    by_cases hi : i < n - 1
    · rw [if_pos hi]
      have hin : i < n := by omega
      obtain ⟨hir, hrn, _, _⟩ := findMin_isMinIndexFrom vec n i hin
      set r := findMin vec n i (i + 1) with hr
      have hL : (swapElems vec i r).length = n := by rw [swapElems_length]; exact hlen
      rw [ih (i + 1) _ hL p (by omega)]
      exact swapElems_getD_other vec i r p (by omega) (by omega)
    · rw [if_neg hi]

lemma sortLoopAux_stopped (n fuel i : Nat) (vec : List Int) (h : ¬i < n - 1) :
    sortLoopAux n fuel vec i = vec := by
  cases fuel with
  | zero => simp only [sortLoopAux]
  | succ fuel => simp only [sortLoopAux]; rw [if_neg h]

/-- Splitting the outer loop's iterations. -/
lemma sortLoopAux_add (n : Nat) :
    ∀ (a b i : Nat) (vec : List Int),
      sortLoopAux n b (sortLoopAux n a vec i) (i + a) =
        sortLoopAux n (a + b) vec i := by
  intro a
  induction a with
  | zero => intro b i vec; simp only [sortLoopAux, Nat.add_zero, Nat.zero_add]
  | succ a ih =>
    intro b i vec
    have e2 : a + 1 + b = (a + b) + 1 := by omega
    rw [e2]
    by_cases hi : i < n - 1
    · simp only [sortLoopAux]
      rw [if_pos hi, if_pos hi]
      have e3 : i + (a + 1) = (i + 1) + a := by omega
      rw [e3]
      exact ih b (i + 1) _
    · rw [sortLoopAux_stopped n (a + 1) i vec hi,
        sortLoopAux_stopped n b (i + (a + 1)) vec (by omega),
        sortLoopAux_stopped n ((a + b) + 1) i vec hi]

/-! ### Global facts about the sort -/

lemma sortedUpTo_final (a : List Int) (n : Nat) (h : SortedUpTo a n (n - 1)) :
    ∀ p q, p ≤ q → q < n → a.getD p 0 ≤ a.getD q 0 := by
  obtain ⟨h1, h2⟩ := h
  intro p q hpq hq
  by_cases hq1 : q < n - 1
  · exact h1 p q hpq hq1
  · have hq2 : q = n - 1 := by omega
    by_cases hp : p < n - 1
    · exact h2 p q hp (by omega) hq
    · have e : p = q := by omega
      rw [e]

lemma selectionSort_length (vec : List Int) :
    (selectionSort vec).length = vec.length :=
  (sortLoopAux_invariant vec.length (vec.length - 1) 0 vec rfl
    (sortedUpTo_zero vec _)).1

lemma selectionSort_coe (vec : List Int) :
    ((selectionSort vec : List Int) : Multiset Int) = (vec : Multiset Int) :=
  (sortLoopAux_invariant vec.length (vec.length - 1) 0 vec rfl
    (sortedUpTo_zero vec _)).2.1

lemma selectionSort_pairs (vec : List Int) :
    ∀ p q, p ≤ q → q < vec.length →
      (selectionSort vec).getD p 0 ≤ (selectionSort vec).getD q 0 := by
  have h := (sortLoopAux_invariant vec.length (vec.length - 1) 0 vec rfl
    (sortedUpTo_zero vec _)).2.2
  have e : min (0 + (vec.length - 1)) (vec.length - 1) = vec.length - 1 := by
    omega
  rw [e] at h
  exact sortedUpTo_final _ _ h

lemma selectionSort_perm (vec : List Int) : (selectionSort vec).Perm vec :=
  Multiset.coe_eq_coe.mp (selectionSort_coe vec)

lemma selectionSort_sorted (vec : List Int) :
    List.Sorted (· ≤ ·) (selectionSort vec) := by
  have h : List.Pairwise (· ≤ ·) (selectionSort vec) := by
    rw [List.pairwise_iff_getElem]
    intro p q hp hq hpq
    have h := selectionSort_pairs vec p q (by omega)
      (by rwa [selectionSort_length] at hq)
    rwa [getD_pos _ _ hp, getD_pos _ _ hq] at h
  exact h

/-! ### The print loop produces space-separated output -/

lemma drop_getD_cons (l : List Int) (i : Nat) (h : i < l.length) :
    l.drop i = l.getD i 0 :: l.drop (i + 1) := by
  rw [List.drop_eq_getElem_cons h, getD_pos l i h]

lemma printLoopAux_joinSpaces (vec : List Int) (n : Nat) (hn : vec.length = n) :
    ∀ (fuel i : Nat), i + fuel = n →
      printLoopAux vec n fuel i = joinSpaces ((vec.drop i).map toString) := by
  intro fuel
  induction fuel with
  | zero =>
    intro i hi
    have e : i = n := by omega
    subst e
    rw [← hn, List.drop_length]
    simp only [printLoopAux, List.map_nil, joinSpaces]
  | succ fuel ih =>
    intro i hi
    have hiL : i < vec.length := by omega
    have hin : i < n := by omega
    simp only [printLoopAux]
    rw [if_pos hin, drop_getD_cons vec i hiL]
    simp only [List.map_cons]
    by_cases hlast : i < n - 1
    · rw [if_pos hlast]
      have hne : vec.drop (i + 1) ≠ [] := by
        intro hcon
        have hd := List.length_drop (i + 1) vec
        rw [hcon] at hd
        simp at hd
        omega
      obtain ⟨y, t, hyt⟩ := List.exists_cons_of_ne_nil hne
      rw [ih (i + 1) (by omega), hyt]
      simp only [List.map_cons, joinSpaces]
    · rw [if_neg hlast]
      have hf : fuel = 0 := by omega
      subst hf
      have hd : vec.drop (i + 1) = [] := by
        apply List.eq_nil_of_length_eq_zero
        rw [List.length_drop]
        omega
      rw [hd]
      simp only [printLoopAux, List.map_nil, joinSpaces]
      rw [String.append_empty, String.append_empty]

lemma printVec_joinSpaces (vec : List Int) (n : Nat) (hn : vec.length = n) :
    printVec vec n = joinSpaces (vec.map toString) := by
  unfold printVec
  rw [printLoopAux_joinSpaces vec n hn n 0 (by omega), List.drop_zero]

/-! ### Reading a well-formed token stream -/

lemma readInts_append (c : List Int) : ∀ rest : List Int,
    readInts c.length (c ++ rest) = some ((c, rest) : List Int × List Int) := by
  induction c with
  | nil => intro rest; rfl
  | cons x t ih =>
    intro rest
    show readInts (t.length + 1) (x :: (t ++ rest)) = _
    simp only [readInts]
    rw [ih rest]

lemma processCase_encode (c : List Int) (rest : List Int) :
    processCase (encodeCase c ++ rest) =
      some ((caseLineOf c c.length, rest) : String × List Int) := by
  show processCase ((c.length : Int) :: (c ++ rest)) = _
  simp only [processCase]
  rw [if_neg (by omega : ¬(c.length : Int) < 0), Int.toNat_ofNat,
    readInts_append c rest]

lemma processCases_encode (cs : List (List Int)) : ∀ extra : List Int,
    processCases cs.length (encodeCases cs ++ extra) =
      some ((cs.map (fun c => caseLineOf c c.length), extra) :
        List String × List Int) := by
  induction cs with
  | nil => intro extra; rfl
  | cons c cs ih =>
    intro extra
    show processCases (cs.length + 1) ((encodeCase c ++ encodeCases cs) ++ extra) = _
    rw [List.append_assoc]
    simp only [processCases]
    rw [processCase_encode c (encodeCases cs ++ extra)]
    simp only [ih extra, List.map_cons]

lemma runProgram_encode (cs : List (List Int)) (extra : List Int) :
    runProgram ((cs.length : Int) :: (encodeCases cs ++ extra)) =
      some ((String.join (cs.map (fun c => caseLineOf c c.length)), 0) :
        String × Nat) := by
  simp only [runProgram]
  rw [if_neg (by omega : ¬(cs.length : Int) < 0), Int.toNat_ofNat,
    processCases_encode cs extra]

lemma programLines_eq_map (cs : List (List Int)) :
    programLines cs = cs.map (fun c => caseLineOf c c.length) := by
  unfold programLines
  have h := processCases_encode cs []
  rw [List.append_nil] at h
  rw [h]

lemma getD_map_line (cs : List (List Int)) : ∀ k, k < cs.length →
    (cs.map (fun c => caseLineOf c c.length)).getD k "" =
      caseLineOf (cs.getD k []) (cs.getD k []).length := by
  induction cs with
  | nil => intro k h; simp at h
  | cons c cs ih =>
    intro k h
    cases k with
    | zero => rfl
    | succ k => exact ih k (by simp at h; omega)

/-! ### The claims -/

/-- C1: for every finite integer sequence, the array produced by the sort
loop is non-decreasing: every adjacent pair of the printed array satisfies
`element[i] ≤ element[i+1]`. -/
theorem selectionSort_output_nondecreasing (vec : List Int) (i : Nat)
    (h : i + 1 < (selectionSort vec).length) :
    (selectionSort vec).getD i 0 ≤ (selectionSort vec).getD (i + 1) 0 :=
  selectionSort_pairs vec i (i + 1) (by omega)
    (by rwa [selectionSort_length] at h)

theorem selectionSort_output_nondecreasing_witness :
    0 + 1 < (selectionSort [3, 1, 2]).length ∧
      (selectionSort [3, 1, 2]).getD 0 0 ≤ (selectionSort [3, 1, 2]).getD 1 0 :=
  ⟨by decide, selectionSort_output_nondecreasing [3, 1, 2] 0 (by decide)⟩

/-- C2: the sequence produced by the sort loop is a permutation of the
input sequence — it holds exactly the same multiset of values. -/
theorem selectionSort_perm_input (vec : List Int) :
    (selectionSort vec).Perm vec :=
  selectionSort_perm vec

/-- C3: each outer pass `i` (valid for `i < n - 1`) computes with its scan
of positions `i+1 .. n-1` exactly the earliest index attaining the minimum
of the remaining positions `i .. n-1` — the unique such index — and the
pass exchanges position `i` with that index before continuing. -/
theorem selection_step_refines_spec (vec : List Int) (n i : Nat)
    (hi : i < n - 1) :
    IsMinIndexFrom vec i n (findMin vec n i (i + 1)) ∧
      (∀ m, IsMinIndexFrom vec i n m → m = findMin vec n i (i + 1)) ∧
      (∀ fuel, sortLoopAux n (fuel + 1) vec i =
        sortLoopAux n fuel (swapElems vec i (findMin vec n i (i + 1))) (i + 1)) := by
  have hin : i < n := by omega
  refine ⟨findMin_isMinIndexFrom vec n i hin, ?_, ?_⟩
  · intro m hm
    exact isMinIndexFrom_unique vec i n m _ hm (findMin_isMinIndexFrom vec n i hin)
  · intro fuel
    simp only [sortLoopAux]
    rw [if_pos hi]

theorem selection_step_refines_spec_witness :
    0 < 3 - 1 ∧
      (IsMinIndexFrom [2, 1, 3] 0 3 (findMin [2, 1, 3] 3 0 1) ∧
        (∀ m, IsMinIndexFrom [2, 1, 3] 0 3 m → m = findMin [2, 1, 3] 3 0 1) ∧
        (∀ fuel, sortLoopAux 3 (fuel + 1) [2, 1, 3] 0 =
          sortLoopAux 3 fuel (swapElems [2, 1, 3] 0 (findMin [2, 1, 3] 3 0 1)) 1)) :=
  ⟨by decide, selection_step_refines_spec [2, 1, 3] 3 0 (by decide)⟩

/-- C4: sorting is idempotent — running the sort on an already-sorted
result leaves it unchanged. -/
theorem selectionSort_idempotent (vec : List Int) :
    selectionSort (selectionSort vec) = selectionSort vec :=
  List.eq_of_perm_of_sorted (selectionSort_perm (selectionSort vec))
    (selectionSort_sorted (selectionSort vec)) (selectionSort_sorted vec)

/-- C5: a test case with declared length `n = 0` produces an empty output
line (just the newline), and with `n = 1` the single element is printed
unchanged. -/
theorem boundary_cases (rest : List Int) (x : Int) :
    processCase ((0 : Int) :: rest) = some ("\n", rest) ∧
      processCase ((1 : Int) :: x :: rest) = some (toString x ++ "\n", rest) := by
  constructor
  · rfl
  · have h1 : processCase ((1 : Int) :: x :: rest) =
        some (caseLineOf [x] 1, rest) := rfl
    rw [h1]
    have h2 : caseLineOf [x] 1 = toString x ++ "\n" := by
      show ((toString x ++ "") ++ "") ++ "\n" = toString x ++ "\n"
      rw [String.append_empty, String.append_empty]
    rw [h2]

/-- C6: the line a test case emits is the sorted elements separated by
single spaces, with no trailing space, terminated by a newline. -/
theorem case_output_format (vec : List Int) (n : Nat) (h : vec.length = n) :
    caseLineOf vec n = joinSpaces ((selectionSort vec).map toString) ++ "\n" := by
  unfold caseLineOf
  rw [printVec_joinSpaces (selectionSort vec) n (by rw [selectionSort_length, h])]

theorem case_output_format_witness :
    ([2, 1] : List Int).length = 2 ∧
      caseLineOf [2, 1] 2 = joinSpaces ((selectionSort [2, 1]).map toString) ++ "\n" :=
  ⟨by decide, case_output_format [2, 1] 2 (by decide)⟩

/-- C7: on the token stream `1, 4, -1, -5, 0, -5` the program outputs
exactly the line `-5 -5 -1 0`. -/
theorem scenario_duplicates_negatives :
    runProgram [1, 4, -1, -5, 0, -5] = some ("-5 -5 -1 0\n", 0) := by
  decide

/-- C8: on a well-formed input (count token `T` followed by `T` encoded
test cases, and possibly further tokens), the loop consumes exactly the
`T` test cases, leaving the extra tokens untouched, and the program
terminates returning exit status `0` with the concatenated output. -/
theorem program_processes_all_cases (cs : List (List Int)) (extra : List Int) :
    processCases cs.length (encodeCases cs ++ extra) =
        some (cs.map (fun c => caseLineOf c c.length), extra) ∧
      runProgram ((cs.length : Int) :: (encodeCases cs ++ extra)) =
        some (String.join (cs.map (fun c => caseLineOf c c.length)), 0) :=
  ⟨processCases_encode cs extra, runProgram_encode cs extra⟩

/-- C9: test cases are independent — two well-formed runs that agree on
the tokens of test case `k` produce the same output line for test case
`k`, whatever their other test cases are. -/
theorem testcases_independent (cs1 cs2 : List (List Int)) (k : Nat)
    (h1 : k < cs1.length) (h2 : k < cs2.length)
    (h : cs1.getD k [] = cs2.getD k []) :
    (programLines cs1).getD k "" = (programLines cs2).getD k "" := by
  rw [programLines_eq_map cs1, programLines_eq_map cs2,
    getD_map_line cs1 k h1, getD_map_line cs2 k h2, h]

theorem testcases_independent_witness :
    (0 < ([[2, 1]] : List (List Int)).length ∧
        0 < ([[2, 1], [5]] : List (List Int)).length ∧
        ([[2, 1]] : List (List Int)).getD 0 [] =
          ([[2, 1], [5]] : List (List Int)).getD 0 []) ∧
      (programLines [[2, 1]]).getD 0 "" =
        (programLines [[2, 1], [5]]).getD 0 "" :=
  ⟨⟨by decide, by decide, by decide⟩,
    testcases_independent [[2, 1]] [[2, 1], [5]] 0 (by decide) (by decide)
      (by decide)⟩

/-- C10: after the outer pass with index `i` completes, positions
`0 .. i` are in non-decreasing order, every element there is at most every
element at positions `i+1 .. n-1`, the array is still a permutation of the
input (so those positions hold the `i+1` smallest elements), and no later
pass modifies positions `0 .. i`. -/
theorem outer_pass_invariant (vec : List Int) (i : Nat)
    (h : i < vec.length - 1) :
    (∀ p q, p ≤ q → q ≤ i →
        (sortPasses vec (i + 1)).getD p 0 ≤ (sortPasses vec (i + 1)).getD q 0) ∧
      (∀ p q, p ≤ i → i < q → q < vec.length →
        (sortPasses vec (i + 1)).getD p 0 ≤ (sortPasses vec (i + 1)).getD q 0) ∧
      ((sortPasses vec (i + 1) : List Int) : Multiset Int) = (vec : Multiset Int) ∧
      (∀ k, i + 1 ≤ k → ∀ p, p ≤ i →
        (sortPasses vec k).getD p 0 = (sortPasses vec (i + 1)).getD p 0) := by
  obtain ⟨hL, hM, hS⟩ := sortLoopAux_invariant vec.length (i + 1) 0 vec rfl
    (sortedUpTo_zero vec vec.length)
  have e : min (0 + (i + 1)) (vec.length - 1) = i + 1 := by omega
  rw [e] at hS
  obtain ⟨hS1, hS2⟩ := hS
  refine ⟨?_, ?_, hM, ?_⟩
  · intro p q hpq hq
    exact hS1 p q hpq (by omega)
  · intro p q hp hq hqn
    exact hS2 p q (by omega) (by omega) hqn
  · intro k hk p hp
    have hdec := sortLoopAux_add vec.length (i + 1) (k - (i + 1)) 0 vec
    have ek : (i + 1) + (k - (i + 1)) = k := by omega
    have e0 : (0 : Nat) + (i + 1) = i + 1 := by omega
    rw [ek, e0] at hdec
    have hpres := sortLoopAux_preserves vec.length (k - (i + 1)) (i + 1)
      (sortLoopAux vec.length (i + 1) vec 0) hL p (by omega)
    show (sortPasses vec k).getD p 0 = _
    unfold sortPasses
    rw [← hdec]
    exact hpres

theorem outer_pass_invariant_witness :
    0 < ([3, 1, 2] : List Int).length - 1 ∧
      ((∀ p q, p ≤ q → q ≤ 0 →
          (sortPasses [3, 1, 2] (0 + 1)).getD p 0 ≤
            (sortPasses [3, 1, 2] (0 + 1)).getD q 0) ∧
        (∀ p q, p ≤ 0 → 0 < q → q < ([3, 1, 2] : List Int).length →
          (sortPasses [3, 1, 2] (0 + 1)).getD p 0 ≤
            (sortPasses [3, 1, 2] (0 + 1)).getD q 0) ∧
        ((sortPasses [3, 1, 2] (0 + 1) : List Int) : Multiset Int) =
          (([3, 1, 2] : List Int) : Multiset Int) ∧
        (∀ k, 0 + 1 ≤ k → ∀ p, p ≤ 0 →
          (sortPasses [3, 1, 2] k).getD p 0 =
            (sortPasses [3, 1, 2] (0 + 1)).getD p 0)) :=
  ⟨by decide, outer_pass_invariant [3, 1, 2] 0 (by decide)⟩
